import Mathlib

/-!
Verification development for the Kuiche repository (transcription and
subtitle-translation scripts).  The Python sources are shallowly embedded:

* `src/transcribe_audio.py`  — sentence segmentation and paragraph grouping;
* `src/transcribe_video.py`  — `format_timestamp` and subtitle-cue segmentation;
* `src/translate_srt.py`     — batch encoder, response parser and the
  resilient engine-fallback translation loop.

Seconds are modelled as rationals, Python strings as Lean `String`s, and the
Python `dict` built by the response parser as an insertion-ordered association
list whose keys stay distinct.
-/

namespace Kuiche

/-! ## Rational arithmetic helpers

The library's `Rat.sub` and `Rat.mul` are irreducible, which blocks
evaluation of segmentation decisions on concrete inputs, so the embedding
computes differences and products through `mkRat`; `ratSub_eq` and
`ratMul1000_eq` below identify them with the ordinary field operations. -/

/-- Difference of two rationals, computed on numerators and denominators. -/
def ratSub (a b : ℚ) : ℚ :=
  mkRat (a.num * b.den - b.num * a.den) (a.den * b.den)

/-- A rational times 1000 (the seconds-to-milliseconds scaling). -/
def ratMul1000 (a : ℚ) : ℚ :=
  mkRat (a.num * 1000) a.den

/-! ## Python string primitives -/

/-- Characters treated as whitespace by Python's `str.strip` and the regex
class for whitespace (space, tab, newline, carriage return, vertical tab,
form feed). -/
def isPyWS (c : Char) : Bool :=
  c = ' ' || c = '\t' || c = '\n' || c = '\r' || c = '\x0b' || c = '\x0c'

/-- ASCII decimal digit, as matched by the regex digit class. -/
def isDigitCh (c : Char) : Bool :=
  '0' ≤ c && c ≤ '9'

/-- Python `str.strip()` on a character list: drop whitespace from both ends. -/
def pyStripList (cs : List Char) : List Char :=
  ((cs.dropWhile isPyWS).reverse.dropWhile isPyWS).reverse

/-- Python `str.strip()`. -/
def pyStrip (s : String) : String :=
  String.mk (pyStripList s.toList)

/-- Python `text.endswith(('.', '?', '!'))`: since each listed suffix is a
single character this is a test on the last character. -/
def endsPunct (s : String) : Bool :=
  match s.toList.getLast? with
  | some c => c = '.' || c = '?' || c = '!'
  | none => false

/-- Decimal digits of a natural number, most significant first; fuelled
recursion so the definition is structural. -/
def natDigitsAux : Nat → Nat → List Char
  | 0, _ => []
  | fuel + 1, n =>
      if n = 0 then []
      else natDigitsAux fuel (n / 10) ++ [Char.ofNat (48 + n % 10)]

/-- Decimal rendering of a natural number, as Python's `str`/format does. -/
def natRepr (n : Nat) : String :=
  if n = 0 then "0" else String.mk (natDigitsAux (n + 1) n)

/-- Value of a digit string (the Python `int(...)` applied to a run of
digits captured by the parser's regex). -/
def digitsToNat (cs : List Char) : Nat :=
  cs.foldl (fun acc c => 10 * acc + (c.toNat - 48)) 0

/-- Python `block.split(chr 10)`: split a character list at every newline,
keeping empty pieces; the split of the empty string is one empty piece. -/
def splitLinesList : List Char → List (List Char)
  | [] => [[]]
  | c :: rest =>
      if c = '\n' then [] :: splitLinesList rest
      else
        match splitLinesList rest with
        | [] => [[c]]
        | l :: ls => (c :: l) :: ls

/-- Lines of a string, Python `s.split` at newline. -/
def splitLines (s : String) : List String :=
  (splitLinesList s.toList).map String.mk

/-! ## Word streams and segmentation (`transcribe_audio.py`, `transcribe_video.py`)

A `Word` is one timestamped ASR word: Python attributes `word`, `start`,
`end` (the last is called `stop` here because `end` is a Lean keyword). -/

structure Word where
  word : String
  start : ℚ
  stop : ℚ
deriving DecidableEq

instance : Inhabited Word := ⟨⟨"", 0, 0⟩⟩

/-- Generic buffered segmentation pass shared by both scripts: append the
word to the buffer, then flush the buffer as one unit when this is the last
word overall or the mode's break condition holds.  Returns the flushed
buffers in order.  `brk` receives the buffer after appending, the current
word, and the remaining words (for pause and lookahead checks). -/
def segBy (brk : List Word → Word → List Word → Bool) :
    List Word → List Word → List (List Word)
  | _, [] => []
  | buf, w :: rest =>
      let buf' := buf ++ [w]
      if rest.isEmpty || brk buf' w rest then buf' :: segBy brk [] rest
      else segBy brk buf' rest

/-- Sentence-mode break condition of `transcribe_audio.py` (lines 58-62):
terminal punctuation on the stripped word, or a pause of more than 0.7 s
to the next word's start (only when a next word exists).  The `is_last`
disjunct of the source's `if` is the `rest.isEmpty` test inside `segBy`. -/
def sentBrk (_buf : List Word) (w : Word) (rest : List Word) : Bool :=
  endsPunct (pyStrip w.word) ||
    (!rest.isEmpty && decide (ratSub (rest.headD default).start w.stop > mkRat 7 10))

/-- Word groups of one sentence-mode segmentation pass. -/
def sentGroups (ws : List Word) : List (List Word) :=
  segBy sentBrk [] ws

/-- Sentences produced by `transcribe_audio.py` (line 65): the buffered raw
word texts are joined with the empty separator and stripped. -/
def sentencesOf (ws : List Word) : List String :=
  (sentGroups ws).map (fun g => pyStrip (String.join (g.map Word.word)))

/-- Joined cue text of a buffer, `transcribe_video.py` line 73: the stripped
word texts joined with single spaces. -/
def cueTextOf (buf : List Word) : String :=
  String.intercalate " " (buf.map (fun w => pyStrip w.word))

/-- Cue-mode break condition of `transcribe_video.py` (lines 76-93), as the
`elif` chain evaluates: terminal punctuation; else a pause of more than
0.8 s to the next word's start; else, when the joined buffer text exceeds
45 characters, break exactly when none of the next up to 3 words ends in
terminal punctuation. -/
def cueBrk (buf : List Word) (w : Word) (rest : List Word) : Bool :=
  if endsPunct (pyStrip w.word) then true
  else if !rest.isEmpty && decide (ratSub (rest.headD default).start w.stop > mkRat 4 5) then true
  else if 45 < (cueTextOf buf).length then
    !((rest.take 3).any (fun v => endsPunct (pyStrip v.word)))
  else false

/-- Word groups of one cue-mode segmentation pass. -/
def cueGroups (ws : List Word) : List (List Word) :=
  segBy cueBrk [] ws

/-- A text unit (sentence or cue) with its derived time range. -/
structure TextUnit where
  text : String
  start : ℚ
  stop : ℚ
deriving DecidableEq

/-- Cues emitted by `transcribe_video.py` (lines 95-98): text, first buffered
word's start, last buffered word's end. -/
def cueUnits (ws : List Word) : List TextUnit :=
  (cueGroups ws).map (fun g =>
    { text := cueTextOf g
      start := (g.headD default).start
      stop := (g.getLastD default).stop })

/-- Sentence-mode text units with the time ranges the spec derives for any
TextUnit (first word's start, last word's end); the script itself keeps only
the sentence strings. -/
def sentUnits (ws : List Word) : List TextUnit :=
  (sentGroups ws).map (fun g =>
    { text := pyStrip (String.join (g.map Word.word))
      start := (g.headD default).start
      stop := (g.getLastD default).stop })

/-! ## Timestamp formatting (`transcribe_video.py` lines 10-17)

`format_timestamp` asserts non-negativity, converts seconds to whole
milliseconds with Python's `round` (exact halves go to the even integer),
then decomposes with `divmod` and zero-pads each field. -/

/-- Python `round` on an exact rational: nearest integer, halves to even. -/
def pyRound (q : ℚ) : ℤ :=
  let f : ℤ := q.floor
  let r : ℚ := ratSub q (mkRat f 1)
  if r < mkRat 1 2 then f
  else if mkRat 1 2 < r then f + 1
  else if f % 2 = 0 then f else f + 1

/-- Python's zero-padding format `0wd`: at least `w` digits, never truncated. -/
def pad (w : Nat) (n : Nat) : String :=
  let s := natRepr n
  if s.length < w then String.mk (List.replicate (w - s.length) '0') ++ s else s

/-- The embedded `format_timestamp`: `none` models the failed assertion on
negative input; on the reachable branch the millisecond count is
non-negative, so the `divmod` chain is carried out on naturals. -/
def format_timestamp (seconds : ℚ) : Option String :=
  if seconds < 0 then none
  else
    let n : Nat := (pyRound (ratMul1000 seconds)).toNat
    let hours := n / 3600000
    let r1 := n % 3600000
    let minutes := r1 / 60000
    let r2 := r1 % 60000
    let secs := r2 / 1000
    let ms := r2 % 1000
    some (pad 2 hours ++ ":" ++ pad 2 minutes ++ ":" ++ pad 2 secs ++ "," ++ pad 3 ms)

/-! ## Translation protocol (`translate_srt.py`)

Subtitle entries carry an index and two timecode strings that the
translation pass never touches, plus the text it rewrites. -/

structure SubEntry where
  index : Nat
  tStart : String
  tEnd : String
  text : String
deriving DecidableEq

instance : Inhabited SubEntry := ⟨⟨0, "", "", ""⟩⟩

/-- The batch encoder (lines 33-35): line `j` is the decimal index, the
separator `_> `, and the entry text; lines are joined with newlines. -/
def encodeBatch (texts : List String) : String :=
  String.intercalate "\n" (texts.enum.map (fun p => natRepr p.1 ++ "_> " ++ p.2))

/-- Deterministic reading of the parser's regex on one line: optional
whitespace, one or more digits, optional whitespace, exactly one separator
character among underscore, greater-than, dot, colon, dash, optional
whitespace, and the remainder as the captured text.  Greedy matching
cannot backtrack here because whitespace, digits and separators are
pairwise disjoint character classes. -/
def matchLine (line : String) : Option (Nat × String) :=
  let cs1 := line.toList.dropWhile isPyWS
  let digits := cs1.takeWhile isDigitCh
  let cs2 := cs1.dropWhile isDigitCh
  if digits.isEmpty then none
  else
    match cs2.dropWhile isPyWS with
    | [] => none
    | c :: rest =>
        if c = '_' || c = '>' || c = '.' || c = ':' || c = '-' then
          some (digitsToNat digits, String.mk (rest.dropWhile isPyWS))
        else none

/-- Insertion into the parser's `dict`: overwriting an existing key keeps
its position, a new key goes to the back, so the list length is the number
of distinct keys, Python's `len(dict)`. -/
def dinsert (d : List (Nat × String)) (k : Nat) (v : String) : List (Nat × String) :=
  if (d.lookup k).isSome then d.map (fun p => if p.1 = k then (k, v) else p)
  else d ++ [(k, v)]

/-- Closing the currently open entry (`translated_lines_dict[current_index] =
...join...strip()`); with no open entry (`current_index == -1`) the dict is
unchanged. -/
def closeEntry (d : List (Nat × String)) (cur : Option (Nat × List String)) :
    List (Nat × String) :=
  match cur with
  | none => d
  | some (k, ls) => dinsert d k (pyStrip (String.intercalate "\n" ls))

/-- The response parser's line loop (lines 42-66): a matching line closes
the open entry and opens a new one with the captured text stripped; a
non-matching line is appended, stripped, to the open entry; leading
non-matching lines are dropped.  After the loop the open entry is closed. -/
def parseLinesAux : List (Nat × String) → Option (Nat × List String) →
    List String → List (Nat × String)
  | d, cur, [] => closeEntry d cur
  | d, cur, line :: rest =>
      match matchLine line with
      | some kg => parseLinesAux (closeEntry d cur) (some (kg.1, [pyStrip kg.2])) rest
      | none =>
          match cur with
          | none => parseLinesAux d none rest
          | some (k, ls) => parseLinesAux d (some (k, ls ++ [pyStrip line])) rest

/-- The response parser: index-to-text mapping recovered from a raw block. -/
def parseBlock (block : String) : List (Nat × String) :=
  parseLinesAux [] none (splitLines block)

/-- Batch reassembly (lines 83-86): entry `j` of the batch receives the
mapping's text for local index `j`, falling back to its own text when the
index is absent (`dict.get(j, sub.text)`). -/
def reassemble (d : List (Nat × String)) : Nat → List SubEntry → List SubEntry
  | _, [] => []
  | j, sub :: rest => { sub with text := (d.lookup j).getD sub.text } :: reassemble d (j + 1) rest

/-- One engine attempt on a batch.  `none` stands for a raised exception:
either the engine call itself failed (`resp = none`) or the integrity check
`len(dict) != len(batch)` raised `ValueError` (lines 69-80).  Both happen
before any entry is mutated, so a failed attempt leaves the batch as it
was; a successful attempt returns the reassembled batch. -/
def attemptBatch (batch : List SubEntry) (resp : Option String) : Option (List SubEntry) :=
  match resp with
  | none => none
  | some block =>
      let d := parseBlock block
      if d.length = batch.length then some (reassemble d 0 batch) else none

/-- The engine loop (lines 37-93): try each engine's outcome in order and
stop at the first success. -/
def tryEngines : List (Option String) → List SubEntry → Option (List SubEntry)
  | [], _ => none
  | r :: rs, batch =>
      match attemptBatch batch r with
      | some b => some b
      | none => tryEngines rs batch

/-- Per-entry fallback (lines 98-102): a successful individual translation
replaces the text, a failed one leaves the entry untouched. -/
def fallbackEntry (f : String → Option String) (sub : SubEntry) : SubEntry :=
  match f sub.text with
  | some t => { sub with text := t }
  | none => sub

/-- Processing of one batch (lines 29-102): the ordered engine attempts,
then, only if they all failed, the per-entry fallback on every entry. -/
def processBatch (resps : List (Option String)) (f : String → Option String)
    (batch : List SubEntry) : List SubEntry :=
  match tryEngines resps batch with
  | some b => b
  | none => batch.map (fallbackEntry f)

/-- Fuelled worker for `chunkList`; the fuel, at least the list length,
makes the recursion structural so that chunking evaluates by reduction.
The zero-fuel branch is unreachable when the fuel bounds the length. -/
def chunkListAux {α : Type} (n : Nat) : Nat → List α → List (List α)
  | _, [] => []
  | 0, x :: xs => [x :: xs]
  | fuel + 1, x :: xs => (x :: xs.take (n - 1)) :: chunkListAux n fuel (xs.drop (n - 1))

/-- The slice loop `for i in range(0, total, batch_size)` (and the
paragraph grouper's effect): consecutive chunks of `n` elements, the last
one possibly shorter. -/
def chunkList {α : Type} (n : Nat) (l : List α) : List (List α) :=
  chunkListAux n l.length l

/-- The whole translation pass over a subtitle file: batch `k` is processed
with the engine outcomes `respOf k` and the per-entry fallback oracle
`fb k`; the processed batches, concatenated, are the saved entries. -/
def translatePass (respOf : Nat → List (Option String))
    (fb : Nat → String → Option String) (bs : Nat) (subs : List SubEntry) :
    List SubEntry :=
  (((chunkList bs subs).enum).map (fun p => processBatch (respOf p.1) (fb p.1) p.2)).flatten

/-- Forgetting the one field translation may change. -/
def eraseText (sub : SubEntry) : SubEntry :=
  { sub with text := "" }

/-! ## Paragraph grouping (`transcribe_audio.py` lines 69-84) -/

/-- Python `" ".join`. -/
def joinSpace (g : List String) : String :=
  String.intercalate " " g

/-- The paragraph loop: append the sentence to the current paragraph, then
close the paragraph when it has reached `spp` sentences or the input is
exhausted. -/
def paragraphsAux (spp : Nat) : List String → List String → List String
  | _, [] => []
  | cur, s :: rest =>
      let cur' := cur ++ [s]
      if spp ≤ cur'.length || rest.isEmpty then
        joinSpace cur' :: paragraphsAux spp [] rest
      else paragraphsAux spp cur' rest

/-- Paragraphs of a sentence list; the script fixes `spp = 5`. -/
def paragraphsOf (spp : Nat) (sentences : List String) : List String :=
  paragraphsAux spp [] sentences

/-- The rendered transcript: paragraphs joined with a double line break. -/
def renderTranscript (spp : Nat) (sentences : List String) : String :=
  String.intercalate "\n\n" (paragraphsOf spp sentences)

/-! ## Concrete inputs used by counterexamples and witnesses -/

/-- The word stream of the spec's sentence-mode scenario, texts exactly as
written there. -/
def scenarioWords : List Word :=
  [⟨"Hello", 0, mkRat 2 5⟩, ⟨"world.", mkRat 1 2, mkRat 9 10⟩,
   ⟨"Next", 2, mkRat 23 10⟩, ⟨"sentence", mkRat 23 10, mkRat 13 5⟩]

/-- The scenario's word stream with each word carrying its leading-space
separator, the form ASR engines emit. -/
def scenarioWordsSpaced : List Word :=
  [⟨" Hello", 0, mkRat 2 5⟩, ⟨" world.", mkRat 1 2, mkRat 9 10⟩,
   ⟨" Next", 2, mkRat 23 10⟩, ⟨" sentence", mkRat 23 10, mkRat 13 5⟩]

/-- Two words that satisfy the spec's Word invariant (non-decreasing starts,
end at or after start) while overlapping each other in time. -/
def overlapWords : List Word :=
  [⟨"a.", 0, 5⟩, ⟨"b", 1, 2⟩]

/-- A single-entry batch for the rejection witness. -/
def w6batch : List SubEntry :=
  [⟨1, "00:00:00,000", "00:00:01,000", "alpha"⟩]

/-- A two-entry batch for the count-only-validation witness. -/
def w9batch : List SubEntry :=
  [⟨1, "00:00:00,000", "00:00:01,000", "alpha"⟩,
   ⟨2, "00:00:01,000", "00:00:02,000", "beta"⟩]

/-- A response whose two parsed indices are 1 and 2 rather than 0 and 1. -/
def w9block : String :=
  "1. x\n2. y"

/-- Two words for the coverage witness: consecutive, non-overlapping. -/
def w2words : List Word :=
  [⟨" Hi.", 0, 1⟩, ⟨" there", 2, 3⟩]

/-- A 43-character word, to push a cue buffer over the 45-character limit. -/
def longWord : Word :=
  ⟨"aaaaaaaaaaaaaaaaaaaaaaaaaaaaaaaaaaaaaaaaaaa", 0, 1⟩

/-- Seven sentences for the paragraph-grouping witness. -/
def w8sentences : List String :=
  ["s1.", "s2.", "s3.", "s4.", "s5.", "s6.", "s7."]

/-- Lookahead-exception witness data: a buffer already 43 characters wide,
the current word, and a lookahead word without terminal punctuation. -/
def w4buf : List Word :=
  [longWord]

def w4w : Word :=
  ⟨"bbbb", 1, 2⟩

def w4rest : List Word :=
  [⟨"c", 2, 3⟩]

/-! ## Helper Boolean chain, for discharging chain hypotheses by evaluation -/

/-- Boolean adjacent-pairs check; `chain'_of_chainB` turns its evaluation
into a `List.Chain'` fact (the library's `Chain'` instance is not
kernel-reducible). -/
def chainB {α : Type} (r : α → α → Bool) : List α → Bool
  | [] => true
  | [_] => true
  | a :: b :: l => r a b && chainB r (b :: l)

/-! ## Arithmetic helper lemmas -/

theorem ratSub_eq (a b : ℚ) : ratSub a b = a - b := by
  rw [ratSub, Rat.mkRat_eq_divInt]
  have ha : (a.den : ℤ) ≠ 0 := Int.ofNat_ne_zero.2 a.den_nz
  have hb : (b.den : ℤ) ≠ 0 := Int.ofNat_ne_zero.2 b.den_nz
  conv_rhs => rw [← Rat.num_divInt_den a, ← Rat.num_divInt_den b]
  rw [Rat.divInt_sub_divInt _ _ ha hb]
  push_cast
  ring_nf

theorem ratMul1000_eq (a : ℚ) : ratMul1000 a = a * 1000 := by
  rw [ratMul1000, Rat.mkRat_eq_divInt]
  have ha : (a.den : ℤ) ≠ 0 := Int.ofNat_ne_zero.2 a.den_nz
  conv_rhs => rw [← Rat.num_divInt_den a]
  rw [Rat.divInt_eq_div, Rat.divInt_eq_div]
  push_cast
  field_simp

theorem chain'_of_chainB {α : Type} {P : α → α → Prop} [DecidableRel P] :
    ∀ {l : List α}, chainB (fun a b => decide (P a b)) l = true → List.Chain' P l
  | [], _ => List.chain'_nil
  | [_], _ => List.chain'_singleton _
  | a :: b :: l, h => by
      rw [chainB, Bool.and_eq_true] at h
      exact List.chain'_cons.2 ⟨of_decide_eq_true h.1, chain'_of_chainB h.2⟩

/-! ## Segmentation lemmas -/

/-- Every flushed buffer is nonempty: a flush happens only after the
current word was appended. -/
theorem segBy_ne_nil (brk : List Word → Word → List Word → Bool) :
    ∀ (ws buf : List Word), ∀ g ∈ segBy brk buf ws, g ≠ [] := by
  intro ws
  induction ws with
  | nil => intro buf g hg; simp [segBy] at hg
  | cons w rest ih =>
      intro buf g hg
      rw [segBy] at hg
      by_cases hc : (rest.isEmpty || brk (buf ++ [w]) w rest) = true
      · rw [if_pos hc, List.mem_cons] at hg
        rcases hg with hg | hg
        · subst hg; simp
        · exact ih [] g hg
      · rw [if_neg hc] at hg
        exact ih (buf ++ [w]) g hg

/-- Coverage: on a nonempty stream the flushed buffers, concatenated,
are the pending buffer followed by the stream — the final flush is forced
by the last word. -/
theorem segBy_flatten (brk : List Word → Word → List Word → Bool) :
    ∀ (ws buf : List Word), ws ≠ [] → (segBy brk buf ws).flatten = buf ++ ws := by
  intro ws
  induction ws with
  | nil => intro buf hne; exact absurd rfl hne
  | cons w rest ih =>
      intro buf _
      rw [segBy]
      by_cases hrest : rest = []
      · subst hrest
        simp [segBy]
      · have hiE : rest.isEmpty = false := by
          cases rest with
          | nil => exact absurd rfl hrest
          | cons a l => rfl
        by_cases hbrk : brk (buf ++ [w]) w rest = true
        · rw [if_pos (by simp [hiE, hbrk])]
          rw [List.flatten_cons, ih [] hrest]
          simp
        · rw [if_neg (by simp [hiE, hbrk])]
          rw [ih (buf ++ [w]) hrest]
          simp

/-- Coverage from an empty buffer, any stream. -/
theorem segBy_flatten_nil (brk : List Word → Word → List Word → Bool)
    (ws : List Word) : (segBy brk [] ws).flatten = ws := by
  cases ws with
  | nil => rfl
  | cons w rest => simpa using segBy_flatten brk (w :: rest) [] (by simp)

theorem head?_eq_headD {α : Type} [Inhabited α] (l : List α) (h : l ≠ []) :
    l.head? = some (l.headD default) := by
  cases l with
  | nil => exact absurd rfl h
  | cons a t => rfl

theorem getLast?_eq_getLastD {α : Type} [Inhabited α] (l : List α) (h : l ≠ []) :
    l.getLast? = some (l.getLastD default) := by
  obtain ⟨x, hx⟩ := Option.isSome_iff_exists.1 (List.getLast?_isSome.2 h)
  rw [hx, List.getLastD_eq_getLast?, hx]
  rfl

/-- Lowering the optional-pair link of `chain'_flatten` to the
default-valued head and last of nonempty groups. -/
theorem chain'_link_headD {R : Word → Word → Prop} :
    ∀ (gs : List (List Word)), (∀ g ∈ gs, g ≠ []) →
      List.Chain' (fun l₁ l₂ => ∀ x ∈ l₁.getLast?, ∀ y ∈ l₂.head?, R x y) gs →
      List.Chain' (fun g g' => R (g.getLastD default) (g'.headD default)) gs
  | [], _, _ => List.chain'_nil
  | [_], _, _ => List.chain'_singleton _
  | g :: g' :: gs, hne, hch => by
      rw [List.chain'_cons] at hch ⊢
      refine ⟨?_, chain'_link_headD (g' :: gs)
        (fun x hx => hne x (List.mem_cons_of_mem _ hx)) hch.2⟩
      exact hch.1 _ (by
          rw [getLast?_eq_getLastD g (hne g (by simp))]; rfl)
        _ (by rw [head?_eq_headD g' (hne g' (by simp [List.mem_cons]))]; rfl)

/-- Inside one nonempty group whose words are chained end-to-start and
individually well-formed, the first start is at most the last end. -/
theorem head_start_le_last_stop :
    ∀ (g : List Word), g ≠ [] →
      List.Chain' (fun a b : Word => a.stop ≤ b.start) g →
      (∀ w ∈ g, w.start ≤ w.stop) →
      (g.headD default).start ≤ (g.getLastD default).stop
  | [], h, _, _ => absurd rfl h
  | [w], _, _, hws => hws w (by simp)
  | a :: b :: t, _, hch, hws => by
      rw [List.chain'_cons] at hch
      have hrec := head_start_le_last_stop (b :: t) (by simp) hch.2
        (fun w hw => hws w (List.mem_cons_of_mem _ hw))
      have hlast : (a :: b :: t).getLastD default = (b :: t).getLastD default := by
        rw [List.getLastD_eq_getLast?, List.getLastD_eq_getLast?, List.getLast?_cons_cons]
      rw [hlast]
      calc (a :: b :: t).headD default |>.start
        _ ≤ a.stop := hws a (by simp)
        _ ≤ b.start := hch.1
        _ ≤ _ := by simpa using hrec

/-- Per-group word chains extracted from the whole stream's chain. -/
theorem segBy_groups_props (brk : List Word → Word → List Word → Bool)
    (ws : List Word) (h3 : List.Chain' (fun a b : Word => a.stop ≤ b.start) ws) :
    (∀ g ∈ segBy brk [] ws, List.Chain' (fun a b : Word => a.stop ≤ b.start) g)
    ∧ List.Chain' (fun g g' : List Word =>
        (g.getLastD default).stop ≤ (g'.headD default).start) (segBy brk [] ws) := by
  have hne : ∀ g ∈ segBy brk [] ws, g ≠ [] := segBy_ne_nil brk ws []
  have hnm : [] ∉ segBy brk [] ws := fun hmem => hne [] hmem rfl
  have hfl : List.Chain' (fun a b : Word => a.stop ≤ b.start)
      (segBy brk [] ws).flatten := by
    rw [segBy_flatten_nil]; exact h3
  have := (List.chain'_flatten hnm).1 hfl
  exact ⟨this.1, chain'_link_headD _ hne this.2⟩

/-- Generic soundness of one segmentation pass for derived units: full
coverage, nonempty groups, ordered non-overlapping unit ranges, and each
unit's start at most its end — given word streams whose consecutive words
do not overlap. -/
theorem segBy_units_sound (brk : List Word → Word → List Word → Bool)
    (txt : List Word → String) (ws : List Word)
    (h2 : ∀ w ∈ ws, w.start ≤ w.stop)
    (h3 : List.Chain' (fun a b : Word => a.stop ≤ b.start) ws) :
    (segBy brk [] ws).flatten = ws
    ∧ (∀ g ∈ segBy brk [] ws, g ≠ [])
    ∧ List.Chain' (fun u v : TextUnit => u.stop ≤ v.start)
        ((segBy brk [] ws).map (fun g =>
          { text := txt g
            start := (g.headD default).start
            stop := (g.getLastD default).stop }))
    ∧ ∀ u ∈ (segBy brk [] ws).map (fun g =>
        ({ text := txt g
           start := (g.headD default).start
           stop := (g.getLastD default).stop } : TextUnit)), u.start ≤ u.stop := by
  obtain ⟨hgch, hlink⟩ := segBy_groups_props brk ws h3
  have hne := segBy_ne_nil brk ws []
  have hcov := segBy_flatten_nil brk ws
  refine ⟨hcov, hne, ?_, ?_⟩
  · rw [List.chain'_map]
    exact hlink
  · intro u hu
    rw [List.mem_map] at hu
    obtain ⟨g, hg, rfl⟩ := hu
    have hsub : ∀ w ∈ g, w.start ≤ w.stop := by
      intro w hw
      refine h2 w ?_
      rw [← hcov]
      exact List.mem_flatten.2 ⟨g, hg, hw⟩
    exact head_start_le_last_stop g (hne g hg) (hgch g hg) hsub

/-! ## Claim C2 — segmentation coverage -/

/-- C2 counterexample.  `overlapWords` satisfies the claim's Word invariant
(non-decreasing starts, each end at or after its start), yet the cue pass
puts the two words into two cues whose time ranges overlap: the first cue
ends at 5 while the second starts at 1.  The claim's non-overlap
conclusion is therefore false under its stated hypothesis. -/
theorem coverage_cex :
    List.Chain' (fun a b : Word => a.start ≤ b.start) overlapWords
    ∧ (∀ w ∈ overlapWords, w.start ≤ w.stop)
    ∧ (cueUnits overlapWords).map (fun u => (u.start, u.stop)) = [(0, 5), (1, 2)]
    ∧ ¬ List.Chain' (fun u v : TextUnit => u.stop ≤ v.start) (cueUnits overlapWords) := by
  refine ⟨chain'_of_chainB (by decide), by decide, by decide, ?_⟩
  intro hch
  have heq : cueUnits overlapWords = [⟨"a.", 0, 5⟩, ⟨"b", 1, 2⟩] := by decide
  rw [heq, List.chain'_cons] at hch
  have h51 : (5 : ℚ) ≤ 1 := hch.1
  norm_num at h51

/-- C2 (status: corrected).  Amended claim: for word streams whose
invariant additionally rules out overlapping words (each word's end at
most the next word's start), both segmentation passes cover the stream
exactly — the flushed groups concatenate back to the input, so every word
appears exactly once, in order, and no group is empty — and the derived
units (first word's start to last word's end, the cue pass's emitted
values) have well-formed, monotonically increasing, non-overlapping time
ranges. -/
theorem coverage_amended (ws : List Word)
    (_h1 : List.Chain' (fun a b : Word => a.start ≤ b.start) ws)
    (h2 : ∀ w ∈ ws, w.start ≤ w.stop)
    (h3 : List.Chain' (fun a b : Word => a.stop ≤ b.start) ws) :
    (cueGroups ws).flatten = ws
    ∧ (sentGroups ws).flatten = ws
    ∧ (∀ g ∈ cueGroups ws, g ≠ [])
    ∧ (∀ g ∈ sentGroups ws, g ≠ [])
    ∧ List.Chain' (fun u v : TextUnit => u.stop ≤ v.start) (cueUnits ws)
    ∧ (∀ u ∈ cueUnits ws, u.start ≤ u.stop)
    ∧ List.Chain' (fun u v : TextUnit => u.stop ≤ v.start) (sentUnits ws)
    ∧ (∀ u ∈ sentUnits ws, u.start ≤ u.stop) := by
  obtain ⟨hc1, hc2, hc3, hc4⟩ := segBy_units_sound cueBrk cueTextOf ws h2 h3
  obtain ⟨hs1, hs2, hs3, hs4⟩ := segBy_units_sound sentBrk
    (fun g => pyStrip (String.join (g.map Word.word))) ws h2 h3
  exact ⟨hc1, hs1, hc2, hs2, hc3, hc4, hs3, hs4⟩

/-- Witness for C2: two consecutive, non-overlapping words. -/
theorem coverage_amended_witness :
    (List.Chain' (fun a b : Word => a.start ≤ b.start) w2words
      ∧ (∀ w ∈ w2words, w.start ≤ w.stop)
      ∧ List.Chain' (fun a b : Word => a.stop ≤ b.start) w2words)
    ∧ ((cueGroups w2words).flatten = w2words
      ∧ (sentGroups w2words).flatten = w2words
      ∧ (∀ g ∈ cueGroups w2words, g ≠ [])
      ∧ (∀ g ∈ sentGroups w2words, g ≠ [])
      ∧ List.Chain' (fun u v : TextUnit => u.stop ≤ v.start) (cueUnits w2words)
      ∧ (∀ u ∈ cueUnits w2words, u.start ≤ u.stop)
      ∧ List.Chain' (fun u v : TextUnit => u.stop ≤ v.start) (sentUnits w2words)
      ∧ (∀ u ∈ sentUnits w2words, u.start ≤ u.stop)) :=
  ⟨⟨chain'_of_chainB (by decide), by decide, chain'_of_chainB (by decide)⟩,
    coverage_amended w2words (chain'_of_chainB (by decide)) (by decide)
      (chain'_of_chainB (by decide))⟩

/-! ## Claim C1 — batch translation round-trip -/

/-- C1 (status: code_bug).  The claim asserts that decoding the encoder's
own payload recovers every entry text.  The code breaks this for every
batch with a nonempty text: the encoder writes the two-character separator
`_>` but the parser's regex consumes exactly one separator character, so
the captured text keeps a residual `> ` prefix.  This theorem evaluates
the failing input, a one-entry batch with text `Hi`: the payload is
`0_> Hi`, the decoded mapping has the right size but maps index 0 to
`> Hi`, not `Hi`. -/
theorem roundtrip_failing_eval :
    encodeBatch ["Hi"] = "0_> Hi"
    ∧ parseBlock "0_> Hi" = [(0, "> Hi")]
    ∧ (parseBlock (encodeBatch ["Hi"])).length = 1
    ∧ parseBlock (encodeBatch ["Hi"]) ≠ [(0, "Hi")] := by
  decide

/-! ## Claim C3 — sentence-mode scenario -/

/-- C3 counterexample.  On the scenario's word stream exactly as written
(texts without separators), the segmentation of `transcribe_audio.py`
joins the buffered texts with the empty separator, producing
`Helloworld.` and `Nextsentence`, not the claimed sentences. -/
theorem scenario_cex :
    sentencesOf scenarioWords = ["Helloworld.", "Nextsentence"]
    ∧ sentencesOf scenarioWords ≠ ["Hello world.", "Next sentence"] := by
  decide

/-- C3 (status: corrected).  Amended claim: with each scenario word
carrying its leading-space separator (the ASR convention the join relies
on), the pass produces exactly the two sentences `Hello world.` and
`Next sentence` — the first closed by terminal punctuation, the second by
end of stream (the 1.1 s pause also exceeds the 0.7 s threshold). -/
theorem scenario_amended :
    sentencesOf scenarioWordsSpaced = ["Hello world.", "Next sentence"] := by
  decide

/-! ## Claim C5 — timestamp formatting -/

/-- C5 (status: confirmed).  `format_timestamp` rejects negative input and,
on non-negative input, renders the rounded whole-millisecond count by
integer division with zero padding: hours, minutes, seconds and
milliseconds are the count divided by 3600000, modulo 3600000 divided by
60000, modulo 60000 divided by 1000, and modulo 1000.  Concretely the
formatted value of 0 is `00:00:00,000` and of 3661.2 (= 18306/5) is
`01:01:01,200`. -/
theorem format_timestamp_spec :
    format_timestamp 0 = some "00:00:00,000"
    ∧ format_timestamp (mkRat 18306 5) = some "01:01:01,200"
    ∧ (∀ s : ℚ, s < 0 → format_timestamp s = none)
    ∧ (∀ s : ℚ, 0 ≤ s →
        format_timestamp s =
          some (pad 2 ((pyRound (s * 1000)).toNat / 3600000) ++ ":" ++
            pad 2 ((pyRound (s * 1000)).toNat % 3600000 / 60000) ++ ":" ++
            pad 2 ((pyRound (s * 1000)).toNat % 60000 / 1000) ++ "," ++
            pad 3 ((pyRound (s * 1000)).toNat % 1000))) := by
  refine ⟨by decide, by decide, ?_, ?_⟩
  · intro s hs
    simp [format_timestamp, if_pos hs]
  · intro s hs
    have h60 : (60000 : ℕ) ∣ 3600000 := ⟨60, by norm_num⟩
    have h1000 : (1000 : ℕ) ∣ 60000 := ⟨60, by norm_num⟩
    have hm : ratMul1000 s = s * 1000 := ratMul1000_eq s
    simp only [format_timestamp, if_neg (not_lt.2 hs), hm,
      Nat.mod_mod_of_dvd _ h60, Nat.mod_mod_of_dvd _ h1000]

/-- Witness for C5: the negative-rejection conjunct applied at −1. -/
theorem format_timestamp_spec_witness : format_timestamp (-1) = none :=
  format_timestamp_spec.2.2.1 (-1) (by norm_num)

/-! ## Claim C6 — integrity rejection -/

/-- C6 (status: confirmed).  When the decoded mapping's size differs from
the batch size, the attempt yields no reassembled batch (the `ValueError`
path: entries are untouched, the failure is an ordinary translation
failure), and both the engine loop and the whole batch processing behave
exactly as if the remaining engines alone were tried — control passes to
the next engine. -/
theorem mismatch_rejected (batch : List SubEntry) (block : String)
    (rs : List (Option String)) (f : String → Option String)
    (h : (parseBlock block).length ≠ batch.length) :
    attemptBatch batch (some block) = none
    ∧ tryEngines (some block :: rs) batch = tryEngines rs batch
    ∧ processBatch (some block :: rs) f batch = processBatch rs f batch := by
  have ha : attemptBatch batch (some block) = none := by
    simp [attemptBatch, if_neg h]
  refine ⟨ha, ?_, ?_⟩
  · simp [tryEngines, ha]
  · simp [processBatch, tryEngines, ha]

/-- Witness for C6: a block with no index marker parses to an empty
mapping, which is rejected against a one-entry batch. -/
theorem mismatch_rejected_witness :
    (parseBlock "garbage").length ≠ w6batch.length
    ∧ attemptBatch w6batch (some "garbage") = none :=
  ⟨by decide, (mismatch_rejected w6batch "garbage" [] (fun _ => none) (by decide)).1⟩

/-! ## Claim C4 — cue-mode lookahead exception -/

/-- C4 (status: confirmed).  At any word where the current word does not
end in terminal punctuation and the pause condition is false, if the
joined buffer text exceeds 45 characters then the cue is flushed at this
word (the code's `is_last_word_overall or should_break` test) precisely
when none of the next up to 3 words ends in `.`, `?` or `!`; in
particular an over-long cue is kept open when such a word is in the
3-word lookahead. -/
theorem lookahead_exception (buf : List Word) (w : Word) (rest : List Word)
    (h1 : endsPunct (pyStrip w.word) = false)
    (h2 : (!rest.isEmpty &&
      decide (ratSub (rest.headD default).start w.stop > mkRat 4 5)) = false)
    (h3 : 45 < (cueTextOf (buf ++ [w])).length) :
    (rest.isEmpty || cueBrk (buf ++ [w]) w rest) = true
      ↔ ∀ v ∈ rest.take 3, endsPunct (pyStrip v.word) = false := by
  cases rest with
  | nil => simp
  | cons r rs =>
      simp only [List.isEmpty_cons, Bool.not_false, Bool.true_and] at h2
      simp only [cueBrk, h1, h2, Bool.false_eq_true, if_false, List.isEmpty_cons,
        Bool.not_false, Bool.true_and, if_pos h3, Bool.false_or]
      rw [Bool.not_eq_true']
      simp [List.any_eq_false]

/-- Witness for C4: a 48-character buffer, a punctuation-free lookahead. -/
theorem lookahead_exception_witness :
    (endsPunct (pyStrip w4w.word) = false
      ∧ (!w4rest.isEmpty &&
          decide (ratSub (w4rest.headD default).start w4w.stop > mkRat 4 5)) = false
      ∧ 45 < (cueTextOf (w4buf ++ [w4w])).length)
    ∧ ((w4rest.isEmpty || cueBrk (w4buf ++ [w4w]) w4w w4rest) = true
        ↔ ∀ v ∈ w4rest.take 3, endsPunct (pyStrip v.word) = false) :=
  ⟨⟨by decide, by decide, by decide⟩,
    lookahead_exception w4buf w4w w4rest (by decide) (by decide) (by decide)⟩

/-! ## Claim C8 — paragraph grouping -/

theorem chunkListAux_fuel_congr {α : Type} (n : Nat) :
    ∀ (f1 : Nat), ∀ (f2 : Nat) (l : List α), l.length ≤ f1 → l.length ≤ f2 →
      chunkListAux n f1 l = chunkListAux n f2 l := by
  intro f1
  induction f1 with
  | zero =>
      intro f2 l h1 _
      have : l = [] := List.length_eq_zero.1 (Nat.le_zero.1 h1)
      subst this
      cases f2 <;> rfl
  | succ g1 ih =>
      intro f2 l h1 h2
      cases l with
      | nil => cases f2 <;> rfl
      | cons x xs =>
          rw [List.length_cons] at h1 h2
          obtain ⟨g2, rfl⟩ : ∃ g2, f2 = g2 + 1 := ⟨f2 - 1, by omega⟩
          rw [chunkListAux, chunkListAux]
          congr 1
          refine ih g2 (xs.drop (n - 1)) ?_ ?_ <;>
            · have := List.length_drop (n - 1) xs
              omega

theorem chunkList_cons_unfold {α : Type} (n : Nat) (x : α) (xs : List α) :
    chunkList n (x :: xs) = (x :: xs.take (n - 1)) :: chunkList n (xs.drop (n - 1)) := by
  simp only [chunkList, List.length_cons]
  rw [chunkListAux]
  congr 1
  refine chunkListAux_fuel_congr n xs.length (xs.drop (n - 1)).length (xs.drop (n - 1)) ?_
    (le_refl _)
  have := List.length_drop (n - 1) xs
  omega

theorem chunkList_flatten {α : Type} (n : Nat) :
    ∀ l : List α, (chunkList n l).flatten = l
  | [] => by simp [chunkList, chunkListAux]
  | x :: xs => by
      rw [chunkList_cons_unfold, List.flatten_cons, chunkList_flatten n (xs.drop (n - 1))]
      simp
  termination_by l => l.length
  decreasing_by simp [List.length_drop]; omega

theorem chunkList_cons {α : Type} (n : Nat) (h : 1 ≤ n) (l : List α)
    (hl : l ≠ []) : chunkList n l = l.take n :: chunkList n (l.drop n) := by
  obtain ⟨m, rfl⟩ : ∃ m, n = m + 1 := ⟨n - 1, by omega⟩
  cases l with
  | nil => exact absurd rfl hl
  | cons x xs =>
      rw [chunkList_cons_unfold]
      simp [List.take_succ_cons, List.drop_succ_cons]

theorem chunkList_sizes {α : Type} (n : Nat) (h : 1 ≤ n) :
    ∀ l : List α, ∀ g ∈ chunkList n l, g ≠ [] ∧ g.length ≤ n
  | [], g, hg => by simp [chunkList, chunkListAux] at hg
  | x :: xs, g, hg => by
      rw [chunkList_cons_unfold] at hg
      rcases List.mem_cons.1 hg with hg | hg
      · subst hg
        refine ⟨by simp, ?_⟩
        have := List.length_take (n - 1) xs
        simp only [List.length_cons, this]
        omega
      · exact chunkList_sizes n h (xs.drop (n - 1)) g hg
  termination_by l => l.length
  decreasing_by simp [List.length_drop]; omega

theorem chunkList_eq_nil_iff {α : Type} (n : Nat) (l : List α) :
    chunkList n l = [] ↔ l = [] := by
  cases l with
  | nil => simp [chunkList, chunkListAux]
  | cons x xs => rw [chunkList_cons_unfold]; simp

theorem chunkList_dropLast_sizes {α : Type} (n : Nat) (h : 1 ≤ n) :
    ∀ l : List α, ∀ g ∈ (chunkList n l).dropLast, g.length = n
  | [], g, hg => by simp [chunkList, chunkListAux] at hg
  | x :: xs, g, hg => by
      rw [chunkList_cons_unfold] at hg
      rcases hc : chunkList n (xs.drop (n - 1)) with _ | ⟨c, cs⟩
      · rw [hc] at hg; simp at hg
      · rw [hc, List.dropLast_cons₂, List.mem_cons] at hg
        rcases hg with hg | hg
        · subst hg
          have hne : xs.drop (n - 1) ≠ [] := by
            intro hnil
            rw [hnil] at hc
            simp [chunkList, chunkListAux] at hc
          have hlen : n - 1 ≤ xs.length := by
            by_contra hlt
            exact hne (List.drop_eq_nil_of_le (by omega))
          simp only [List.length_cons, List.length_take]
          omega
        · have := chunkList_dropLast_sizes n h (xs.drop (n - 1)) g
          rw [hc] at this
          exact this hg
  termination_by l => l.length
  decreasing_by simp [List.length_drop]; omega

/-- Invariant of the paragraph loop: with a partial paragraph `cur` of
fewer than `spp` sentences and remaining input `ss`, the loop yields the
space-joined chunks of `cur ++ ss`. -/
theorem paragraphsAux_eq (spp : Nat) (h : 1 ≤ spp) :
    ∀ (ss : List String), ss ≠ [] → ∀ (cur : List String), cur.length < spp →
      paragraphsAux spp cur ss = (chunkList spp (cur ++ ss)).map joinSpace := by
  intro ss
  induction ss with
  | nil => intro hne; exact absurd rfl hne
  | cons s rest ih =>
      intro _ cur hcur
      have hlen1 : (cur ++ [s]).length = cur.length + 1 := by simp
      by_cases hrest : rest = []
      · subst hrest
        have hle : (cur ++ [s]).length ≤ spp := by omega
        rw [paragraphsAux]
        simp only [List.isEmpty_nil, Bool.or_true, if_true]
        rw [chunkList_cons spp h (cur ++ [s]) (by simp),
          List.take_of_length_le hle, List.drop_eq_nil_of_le hle]
        simp [chunkList, chunkListAux, paragraphsAux]
      · rw [paragraphsAux]
        by_cases hfull : spp ≤ (cur ++ [s]).length
        · have hcur1 : (cur ++ [s]).length = spp := by omega
          rw [if_pos (by rw [Bool.or_eq_true]; exact Or.inl (decide_eq_true hfull))]
          rw [ih hrest [] (by simpa using h)]
          have hsplit : cur ++ s :: rest = (cur ++ [s]) ++ rest := by simp
          rw [hsplit, chunkList_cons spp h ((cur ++ [s]) ++ rest) (by simp),
            List.take_left' hcur1, List.drop_left' hcur1]
          simp
        · have hcc : ((cur ++ [s]).length < spp) := by omega
          have hiE : rest.isEmpty = false := by
            cases rest with
            | nil => exact absurd rfl hrest
            | cons a l => rfl
          rw [if_neg (by
            rw [Bool.or_eq_true]
            rintro (hd | hd)
            · exact hfull (of_decide_eq_true hd)
            · rw [hiE] at hd; exact Bool.false_ne_true hd)]
          rw [ih hrest (cur ++ [s]) hcc]
          simp

theorem paragraphsOf_eq (spp : Nat) (h : 1 ≤ spp) (ss : List String) :
    paragraphsOf spp ss = (chunkList spp ss).map joinSpace := by
  cases ss with
  | nil => simp [paragraphsOf, paragraphsAux, chunkList, chunkListAux]
  | cons s rest =>
      have := paragraphsAux_eq spp h (s :: rest) (by simp) [] (by simpa using h)
      simpa [paragraphsOf] using this

/-- C8 (status: confirmed).  For a positive group size (the script fixes
5), the paragraph loop groups the sentences, in order, into consecutive
chunks of exactly `spp` sentences except a shorter final chunk closed at
end of input; paragraphs are the space-joins of the chunks and the
rendered transcript joins them with a double line break. -/
theorem paragraph_grouping (spp : Nat) (ss : List String) (h : 1 ≤ spp) :
    paragraphsOf spp ss = (chunkList spp ss).map joinSpace
    ∧ (chunkList spp ss).flatten = ss
    ∧ (∀ g ∈ (chunkList spp ss).dropLast, g.length = spp)
    ∧ (∀ g ∈ chunkList spp ss, g ≠ [] ∧ g.length ≤ spp)
    ∧ renderTranscript spp ss =
        String.intercalate "\n\n" ((chunkList spp ss).map joinSpace) := by
  refine ⟨paragraphsOf_eq spp h ss, chunkList_flatten spp ss,
    chunkList_dropLast_sizes spp h ss, chunkList_sizes spp h ss, ?_⟩
  rw [renderTranscript, paragraphsOf_eq spp h ss]

/-- Witness for C8: seven sentences at the script's group size 5 yield a
five-sentence paragraph and a final two-sentence paragraph. -/
theorem paragraph_grouping_witness :
    (1 ≤ 5 ∧ paragraphsOf 5 w8sentences = (chunkList 5 w8sentences).map joinSpace)
    ∧ paragraphsOf 5 w8sentences = ["s1. s2. s3. s4. s5.", "s6. s7."] :=
  ⟨⟨by decide, (paragraph_grouping 5 w8sentences (by decide)).1⟩, by decide⟩

/-! ## Claim C9 — validation checks only the count -/

theorem reassemble_getElem (d : List (Nat × String)) :
    ∀ (batch : List SubEntry) (n j : Nat),
      (reassemble d n batch)[j]? =
        (batch[j]?).map (fun sub => { sub with text := (d.lookup (n + j)).getD sub.text })
  | [], n, j => by simp [reassemble]
  | sub :: rest, n, 0 => by simp [reassemble]
  | sub :: rest, n, j + 1 => by
      have := reassemble_getElem d rest (n + 1) j
      simpa [reassemble, Nat.add_comm, Nat.add_assoc, Nat.add_left_comm] using this

/-- C9 (status: confirmed, implicit claim).  Acceptance of a decoded
mapping tests only that the number of parsed indices equals the batch
size; on acceptance entry `j` receives the mapping's text for key `j` when
present and otherwise keeps its own text, so keys outside `0..N-1` are
silently discarded and uncovered entries stay untranslated. -/
theorem count_only_validation (batch : List SubEntry) (block : String)
    (h : (parseBlock block).length = batch.length) :
    attemptBatch batch (some block) = some (reassemble (parseBlock block) 0 batch)
    ∧ ∀ j : Nat, (reassemble (parseBlock block) 0 batch)[j]? =
        (batch[j]?).map (fun sub =>
          { sub with text := (((parseBlock block).lookup j).getD sub.text) }) := by
  refine ⟨by simp [attemptBatch, if_pos h], fun j => ?_⟩
  simpa using reassemble_getElem (parseBlock block) batch 0 j

/-- Witness for C9: a two-entry batch against a response numbered 1 and 2.
The mapping size matches, so the response is accepted; entry 0 keeps its
original text, entry 1 takes the text filed under key 1, and key 2 is
dropped. -/
theorem count_only_validation_witness :
    (parseBlock w9block).length = w9batch.length
    ∧ attemptBatch w9batch (some w9block) = some (reassemble (parseBlock w9block) 0 w9batch)
    ∧ (reassemble (parseBlock w9block) 0 w9batch).map SubEntry.text = ["alpha", "x"] :=
  ⟨by decide, (count_only_validation w9batch w9block (by decide)).1, by decide⟩

/-! ## Claim C7 — fallback exhaustion -/

theorem tryEngines_all_none (batch : List SubEntry) :
    ∀ rs : List (Option String), (∀ r ∈ rs, attemptBatch batch r = none) →
      tryEngines rs batch = none
  | [], _ => rfl
  | r :: rs, h => by
      rw [tryEngines, h r (by simp)]
      exact tryEngines_all_none batch rs (fun x hx => h x (List.mem_cons_of_mem _ hx))

/-- All engines failing sends the batch to the per-entry fallback. -/
theorem processBatch_all_none (rs : List (Option String))
    (f : String → Option String) (batch : List SubEntry)
    (h : ∀ r ∈ rs, attemptBatch batch r = none) :
    processBatch rs f batch = batch.map (fallbackEntry f) := by
  rw [processBatch, tryEngines_all_none batch rs h]

/-- C7 (status: confirmed).  If every configured engine's attempt on batch
`k` fails (engine error or validation failure), then the whole pass still
runs: batch `k`'s entries are each put through the per-entry fallback,
every other batch is processed normally, and an entry whose individual
fallback fails keeps its original text — neither aborts the run. -/
theorem fallback_exhaustion (respOf : Nat → List (Option String))
    (fb : Nat → String → Option String) (subs : List SubEntry) (bs k : Nat)
    (hk : ∀ r ∈ respOf k, attemptBatch ((chunkList bs subs).getD k []) r = none) :
    translatePass respOf fb bs subs =
      (((chunkList bs subs).enum).map (fun p =>
        if p.1 = k then p.2.map (fallbackEntry (fb k))
        else processBatch (respOf p.1) (fb p.1) p.2)).flatten
    ∧ ∀ sub : SubEntry, fb k sub.text = none → fallbackEntry (fb k) sub = sub := by
  constructor
  · rw [translatePass]
    congr 1
    apply List.map_congr_left
    intro p hp
    obtain ⟨m, b⟩ := p
    by_cases hpk : m = k
    · subst hpk
      rw [if_pos rfl]
      have hb : (chunkList bs subs)[m]? = some b :=
        List.mk_mem_enum_iff_getElem?.1 hp
      have hbd : (chunkList bs subs).getD m [] = b := by
        rw [List.getD_eq_getElem?_getD, hb]
        rfl
      rw [hbd] at hk
      exact processBatch_all_none (respOf m) (fb m) b hk
    · rw [if_neg hpk]
  · intro sub hsub
    rw [fallbackEntry, hsub]

/-- Witness for C7: two one-entry batches; batch 0's engines both fail
(one engine error, one mismatched response) and its fallback fails, batch
1 is left to the normal path. -/
theorem fallback_exhaustion_witness :
    (∀ r ∈ [none, some "zzz"],
      attemptBatch ((chunkList 1 w9batch).getD 0 []) r = none)
    ∧ (translatePass (fun _ => [none, some "zzz"]) (fun _ _ => none) 1 w9batch =
        (((chunkList 1 w9batch).enum).map (fun p =>
          if p.1 = 0 then p.2.map (fallbackEntry ((fun (_ : Nat) (_ : String) =>
            (none : Option String)) 0))
          else processBatch ((fun (_ : Nat) => [none, some "zzz"]) p.1)
            ((fun (_ : Nat) (_ : String) => (none : Option String)) p.1) p.2)).flatten
      ∧ ∀ sub : SubEntry, (fun (_ : String) => (none : Option String)) sub.text = none →
          fallbackEntry (fun _ => none) sub = sub) :=
  ⟨by decide,
    fallback_exhaustion (fun _ => [none, some "zzz"]) (fun _ _ => none) w9batch 1 0
      (by decide)⟩

/-! ## Claim C10 — translation touches only entry texts -/

theorem reassemble_eraseText (d : List (Nat × String)) :
    ∀ (batch : List SubEntry) (n : Nat),
      (reassemble d n batch).map eraseText = batch.map eraseText
  | [], _ => rfl
  | sub :: rest, n => by
      rw [reassemble, List.map_cons, List.map_cons, reassemble_eraseText d rest (n + 1)]
      rfl

theorem attemptBatch_eraseText (batch : List SubEntry) (r : Option String)
    (out : List SubEntry) (h : attemptBatch batch r = some out) :
    out.map eraseText = batch.map eraseText := by
  cases r with
  | none => exact absurd h (by simp [attemptBatch])
  | some block =>
      rw [attemptBatch] at h
      by_cases hlen : (parseBlock block).length = batch.length
      · rw [if_pos hlen] at h
        cases h
        exact reassemble_eraseText (parseBlock block) batch 0
      · rw [if_neg hlen] at h
        cases h

theorem tryEngines_eraseText (batch : List SubEntry) :
    ∀ (rs : List (Option String)) (out : List SubEntry),
      tryEngines rs batch = some out → out.map eraseText = batch.map eraseText
  | [], out, h => by cases h
  | r :: rs, out, h => by
      rw [tryEngines] at h
      cases ha : attemptBatch batch r with
      | some b =>
          rw [ha] at h
          cases h
          exact attemptBatch_eraseText batch r _ ha
      | none =>
          rw [ha] at h
          exact tryEngines_eraseText batch rs out h

theorem fallbackEntry_eraseText (f : String → Option String) (sub : SubEntry) :
    eraseText (fallbackEntry f sub) = eraseText sub := by
  rw [fallbackEntry]
  cases f sub.text <;> rfl

theorem processBatch_eraseText (rs : List (Option String))
    (f : String → Option String) (batch : List SubEntry) :
    (processBatch rs f batch).map eraseText = batch.map eraseText := by
  rw [processBatch]
  cases ht : tryEngines rs batch with
  | some b => exact tryEngines_eraseText batch rs b ht
  | none =>
      rw [List.map_map]
      exact List.map_congr_left (fun sub _ => fallbackEntry_eraseText f sub)

/-- C10 (status: confirmed).  The whole translation pass — batch
successes, reassembly, and per-entry fallback alike — changes only entry
texts: erasing the text field of every output entry gives exactly the
input entries with their texts erased, so the entry count, order, indices
and timecodes all survive unchanged. -/
theorem translate_frame (respOf : Nat → List (Option String))
    (fb : Nat → String → Option String) (subs : List SubEntry) (bs : Nat)
    (_hbs : 1 ≤ bs) :
    (translatePass respOf fb bs subs).map eraseText = subs.map eraseText
    ∧ (translatePass respOf fb bs subs).length = subs.length := by
  have hmain : (translatePass respOf fb bs subs).map eraseText = subs.map eraseText := by
    rw [translatePass, List.map_flatten, List.map_map]
    have hcg : ∀ p ∈ (chunkList bs subs).enum,
        (List.map eraseText ∘ fun p => processBatch (respOf p.1) (fb p.1) p.2) p =
          (List.map eraseText) p.2 := by
      intro p _
      exact processBatch_eraseText (respOf p.1) (fb p.1) p.2
    rw [List.map_congr_left hcg]
    have henum : ((chunkList bs subs).enum).map (fun p => List.map eraseText p.2) =
        ((chunkList bs subs).map (List.map eraseText)) := by
      have h1 : ((chunkList bs subs).enum).map (fun p => List.map eraseText p.2) =
          (((chunkList bs subs).enum).map Prod.snd).map (List.map eraseText) := by
        rw [List.map_map]
        rfl
      rw [h1, List.enum_map_snd]
    rw [henum, ← List.map_flatten, chunkList_flatten]
  refine ⟨hmain, ?_⟩
  have := congrArg List.length hmain
  simpa using this

/-- Witness for C10: a two-entry file, batch size 1, an engine outcome
that rewrites the text of each one-entry batch. -/
theorem translate_frame_witness :
    (1 ≤ 1 ∧
      (translatePass (fun _ => [some "0. x"]) (fun _ _ => none) 1 w9batch).map eraseText =
        w9batch.map eraseText)
    ∧ (translatePass (fun _ => [some "0. x"]) (fun _ _ => none) 1 w9batch).map
        SubEntry.text = ["x", "x"] :=
  ⟨⟨by decide,
      (translate_frame (fun _ => [some "0. x"]) (fun _ _ => none) w9batch 1 (by decide)).1⟩,
    by decide⟩

end Kuiche
